import Mathlib

/-!
Verification development for cc-lib/threadutil.h.

The header provides two concurrency mechanisms:

1. A shared index-cursor work distributor (ParallelComp and ParallelAppi,
   lines 51-142): a mutex-guarded counter `next_index` starts at 0; each of
   the spawned worker threads repeatedly locks the mutex, exits if
   `next_index == num`, and otherwise claims `my_index = next_index++`,
   unlocks, and invokes the user function on the claimed index.  The caller
   joins all workers before returning.  ParallelMap (lines 153-173) runs
   this distributor with a wrapped function that writes `f(vec[idx])` into
   slot `idx` of a pre-sized output buffer; UnParallelMap (lines 176-189)
   is the single-threaded drop-in.

2. A throttled asynchronous runner (Asynchronously, lines 211-251): a
   mutex-guarded counter `threads_active`; Run launches the task on a
   detached thread (incrementing the counter, with the thread decrementing
   it on completion) when `threads_active < max_threads`, and otherwise
   runs the task synchronously; the destructor busy-polls under the lock
   until the counter is zero.

Both mechanisms are embedded as executable transition systems: a state, a
set of events, a partial step function (an event that is not enabled in a
state yields `none`), and an executable interpreter over event lists.  The
set of event lists that execute successfully is exactly the set of
interleavings the real scheduler could produce at the granularity of the
critical sections of the source (each lock-protected read-modify-write is
one atomic event, which is faithful because the source never holds the
lock while running user code).
-/

/-- Worker-thread status: a worker of ParallelComp / ParallelAppi is either
still in its claim loop (line 119, `for (;;)`) or has returned (line 125). -/
inductive WStatus : Type
  | running : WStatus
  | done : WStatus
deriving DecidableEq

/-- State of the index-cursor work distributor (lines 112-133), generic in
the accumulator `acc` that records the effect of the invocations of the
user function: `next` is `next_index` (line 113), `workers` the status of
each spawned thread (lines 135-139). -/
structure DispState (A : Type) where
  next : Int
  acc : A
  workers : List WStatus
deriving DecidableEq

/-- An atomic event of the distributor: worker `w` either claims an index
and runs the user function on it (lines 120, 127-131), or observes the
exhausted cursor and exits (lines 121-125). -/
inductive CompEvent : Type
  | claim : Nat → CompEvent
  | finish : Nat → CompEvent
deriving DecidableEq

/-- One atomic step of the claim loop of worker `w` (lines 119-132).
A claim requires the worker to still be running and `next_index != num`
(line 121); it increments the cursor and applies `effect` for the
invocation `f(my_index)` (lines 127, 131).  A finish requires
`next_index == num` and retires the worker (lines 121-125). -/
def dispStep {A : Type} (num : Int) (effect : A → Int → A)
    (s : DispState A) (e : CompEvent) : Option (DispState A) :=
  match e with
  | CompEvent.claim w =>
    match s.workers[w]? with
    | some WStatus.running =>
      if s.next = num then none
      else some { s with next := s.next + 1, acc := effect s.acc s.next }
    | _ => none
  | CompEvent.finish w =>
    match s.workers[w]? with
    | some WStatus.running =>
      if s.next = num then some { s with workers := s.workers.set w WStatus.done }
      else none
    | _ => none

/-- Run a list of events; `none` if some event is not enabled. -/
def dispExec {A : Type} (num : Int) (effect : A → Int → A) :
    DispState A → List CompEvent → Option (DispState A)
  | s, [] => some s
  | s, e :: tr =>
    match dispStep num effect s e with
    | some s2 => dispExec num effect s2 tr
    | none => none

/-- The number of worker threads spawned by ParallelComp (lines 109-111):
`max_concurrency = std::min(num, max_concurrency)` then
`max_concurrency = std::max(max_concurrency, 1)`. -/
def spawnCount (num max_concurrency : Int) : Int :=
  max (min num max_concurrency) 1

/-- Initial state of a dispatch: `next_index = 0` (line 113), `k` freshly
spawned workers all in their loops (lines 135-139). -/
def dispInit {A : Type} (a0 : A) (k : Int) : DispState A :=
  { next := 0, acc := a0, workers := List.replicate k.toNat WStatus.running }

/-- The observable effect of `(void)f(my_index)` at line 131: the log of
indices on which the user function has been invoked, in claim order. -/
def recordIndex (l : List Int) (i : Int) : List Int := l ++ [i]

/-- `ParallelComp(num, f, max_concurrency)` at entry (lines 105-113 and
135-139): cursor at 0, empty invocation log, `spawnCount` workers. -/
def ParallelCompInit (num M : Int) : DispState (List Int) :=
  dispInit [] (spawnCount num M)

/-- All interleavings of `ParallelComp(num, f, M)`. -/
def parallelCompExec (num M : Int) (tr : List CompEvent) :
    Option (DispState (List Int)) :=
  dispExec num recordIndex (ParallelCompInit num M) tr

/-- All workers have returned: the point at which the joins at line 141
complete and ParallelComp returns to its caller. -/
def AllDone {A : Type} (s : DispState A) : Prop :=
  ∀ w ∈ s.workers, w = WStatus.done

instance allDone_decidable {A : Type} (s : DispState A) : Decidable (AllDone s) :=
  List.decidableBAll (fun w => w = WStatus.done) s.workers

/-- The integers `0, 1, ..., n-1` (empty for `n ≤ 0`). -/
def intRange (n : Int) : List Int := (List.range n.toNat).map Int.ofNat

lemma intRange_zero : intRange 0 = [] := rfl

lemma intRange_succ {n : Int} (h : 0 ≤ n) : intRange (n + 1) = intRange n ++ [n] := by
  have h1 : (n + 1).toNat = n.toNat + 1 := by omega
  have h2 : Int.ofNat n.toNat = n := by
    rw [Int.ofNat_eq_coe]
    omega
  rw [intRange, intRange, h1, List.range_succ, List.map_append]
  simp only [List.map_cons, List.map_nil, h2]

lemma mem_intRange {n i : Int} : i ∈ intRange n ↔ 0 ≤ i ∧ i < n := by
  simp only [intRange, List.mem_map, List.mem_range, Int.ofNat_eq_coe]
  constructor
  · rintro ⟨a, ha, rfl⟩
    omega
  · rintro ⟨h0, h1⟩
    exact ⟨i.toNat, by omega, by omega⟩

lemma nodup_intRange (n : Int) : (intRange n).Nodup := by
  refine List.Nodup.map ?_ (List.nodup_range _)
  intro a b hab
  exact Int.ofNat.inj hab

lemma foldl_recordIndex (l0 xs : List Int) :
    xs.foldl recordIndex l0 = l0 ++ xs := by
  induction xs generalizing l0 with
  | nil => simp
  | cons x xs ih => simp [recordIndex, ih]

/-- Invariant of the distributor, for a dispatch over `[0, num)` with
initial accumulator `a0` and `k` spawned workers: the cursor stays in
range, a retired worker certifies an exhausted cursor, and the
accumulator is exactly the effects of the invocations on
`0, ..., next-1` in order. -/
def DispInv {A : Type} (num : Int) (effect : A → Int → A) (a0 : A) (k : Nat)
    (s : DispState A) : Prop :=
  0 ≤ s.next ∧ (0 ≤ num → s.next ≤ num) ∧
  (WStatus.done ∈ s.workers → s.next = num) ∧
  s.acc = (intRange s.next).foldl effect a0 ∧
  s.workers.length = k ∧
  (num < 0 → ∀ w ∈ s.workers, w = WStatus.running)

lemma dispStep_inv {A : Type} {num : Int} {effect : A → Int → A} {a0 : A} {k : Nat}
    {s s2 : DispState A} {e : CompEvent}
    (hs : DispInv num effect a0 k s) (h : dispStep num effect s e = some s2) :
    DispInv num effect a0 k s2 := by
  obtain ⟨h0, h1, h2, h3, h4, h5⟩ := hs
  cases e with
  | claim w =>
    simp only [dispStep] at h
    cases hw : s.workers[w]? with
    | none => rw [hw] at h; exact absurd h (by simp)
    | some st =>
      rw [hw] at h
      cases st with
      | done => exact absurd h (by simp)
      | running =>
        by_cases hn : s.next = num
        · rw [if_pos hn] at h; exact absurd h (by simp)
        · rw [if_neg hn] at h
          injection h with h
          subst h
          refine ⟨show 0 ≤ s.next + 1 by omega,
                  fun hp => show s.next + 1 ≤ num by have := h1 hp; omega, ?_, ?_, h4, ?_⟩
          · intro hd
            exact absurd (h2 hd) hn
          · simp only
            rw [intRange_succ h0, List.foldl_append, ← h3]
            rfl
          · intro hneg
            exact h5 hneg
  | finish w =>
    simp only [dispStep] at h
    cases hw : s.workers[w]? with
    | none => rw [hw] at h; exact absurd h (by simp)
    | some st =>
      rw [hw] at h
      cases st with
      | done => exact absurd h (by simp)
      | running =>
        by_cases hn : s.next = num
        · rw [if_pos hn] at h
          injection h with h
          subst h
          refine ⟨h0, h1, fun _ => hn, h3, by simp [h4], ?_⟩
          intro hneg
          exfalso
          omega
        · rw [if_neg hn] at h; exact absurd h (by simp)

lemma dispExec_inv {A : Type} {num : Int} {effect : A → Int → A} {a0 : A} {k : Nat} :
    ∀ {tr : List CompEvent} {s s2 : DispState A},
    DispInv num effect a0 k s → dispExec num effect s tr = some s2 →
    DispInv num effect a0 k s2 := by
  intro tr
  induction tr with
  | nil =>
    intro s s2 hs h
    simp only [dispExec] at h
    injection h with h
    subst h
    exact hs
  | cons e tr ih =>
    intro s s2 hs h
    simp only [dispExec] at h
    cases he : dispStep num effect s e with
    | none => rw [he] at h; exact absurd h (by simp)
    | some s1 =>
      rw [he] at h
      exact ih (dispStep_inv hs he) h

lemma dispInit_inv {A : Type} (num : Int) (effect : A → Int → A) (a0 : A) (kk : Int) :
    DispInv num effect a0 kk.toNat (dispInit a0 kk) := by
  refine ⟨le_refl 0, fun h => h, ?_, by simp [dispInit, intRange_zero], by simp [dispInit], ?_⟩
  · intro hd
    have := List.eq_of_mem_replicate hd
    exact absurd this (by simp)
  · intro _ w hw
    exact List.eq_of_mem_replicate hw

/-- Number of workers still in their claim loops. -/
def countRunning : List WStatus → Nat
  | [] => 0
  | WStatus.running :: ws => countRunning ws + 1
  | WStatus.done :: ws => countRunning ws

lemma countRunning_replicate (k : Nat) :
    countRunning (List.replicate k WStatus.running) = k := by
  induction k with
  | zero => rfl
  | succ k ih => simp [List.replicate, countRunning, ih]

lemma countRunning_set_done :
    ∀ (l : List WStatus) (w : Nat), l[w]? = some WStatus.running →
    countRunning (l.set w WStatus.done) + 1 = countRunning l := by
  intro l
  induction l with
  | nil =>
    intro w h
    simp at h
  | cons a l ih =>
    intro w h
    cases w with
    | zero =>
      simp at h
      subst h
      rfl
    | succ w =>
      simp at h
      have step : (a :: l).set (w + 1) WStatus.done = a :: l.set w WStatus.done := rfl
      rw [step]
      cases a with
      | running =>
        show countRunning (l.set w WStatus.done) + 1 + 1 = countRunning l + 1
        rw [ih w h]
      | done =>
        show countRunning (l.set w WStatus.done) + 1 = countRunning l
        exact ih w h

/-- Each enabled event strictly decreases the sum of the remaining indices
and the number of still-running workers: a claim consumes an index, a
finish retires a worker. -/
lemma dispStep_measure {A : Type} {num : Int} {effect : A → Int → A}
    {s s2 : DispState A} {e : CompEvent}
    (h0 : 0 ≤ s.next) (h1 : s.next ≤ num)
    (h : dispStep num effect s e = some s2) :
    (num - s2.next).toNat + countRunning s2.workers + 1 ≤
    (num - s.next).toNat + countRunning s.workers := by
  cases e with
  | claim w =>
    simp only [dispStep] at h
    cases hw : s.workers[w]? with
    | none => rw [hw] at h; exact absurd h (by simp)
    | some st =>
      rw [hw] at h
      cases st with
      | done => exact absurd h (by simp)
      | running =>
        by_cases hn : s.next = num
        · rw [if_pos hn] at h; exact absurd h (by simp)
        · rw [if_neg hn] at h
          injection h with h
          subst h
          show (num - (s.next + 1)).toNat + countRunning s.workers + 1 ≤ _
          omega
  | finish w =>
    simp only [dispStep] at h
    cases hw : s.workers[w]? with
    | none => rw [hw] at h; exact absurd h (by simp)
    | some st =>
      rw [hw] at h
      cases st with
      | done => exact absurd h (by simp)
      | running =>
        by_cases hn : s.next = num
        · rw [if_pos hn] at h
          injection h with h
          subst h
          show (num - s.next).toNat + countRunning (s.workers.set w WStatus.done) + 1 ≤ _
          have := countRunning_set_done s.workers w hw
          omega
        · rw [if_neg hn] at h; exact absurd h (by simp)

/-- Every successful trace is no longer than the initial measure: with a
nonnegative item count the claim loops always terminate. -/
lemma dispExec_length {A : Type} {num : Int} {effect : A → Int → A} {a0 : A} {k : Nat}
    (hnum : 0 ≤ num) :
    ∀ (tr : List CompEvent) (s s2 : DispState A),
    DispInv num effect a0 k s → dispExec num effect s tr = some s2 →
    tr.length ≤ (num - s.next).toNat + countRunning s.workers := by
  intro tr
  induction tr with
  | nil =>
    intro s s2 _ _
    simp
  | cons e tr ih =>
    intro s s2 hs h
    simp only [dispExec] at h
    cases he : dispStep num effect s e with
    | none => rw [he] at h; exact absurd h (by simp)
    | some s1 =>
      rw [he] at h
      have hinv1 := dispStep_inv hs he
      have hlen := ih s1 s2 hinv1 h
      have hdec := dispStep_measure hs.1 (hs.2.1 hnum) he
      simp only [List.length_cons]
      omega

/-- If all workers are done and at least one was spawned, some worker is done. -/
lemma allDone_mem {A : Type} {s : DispState A} (hd : AllDone s)
    (hne : s.workers.length ≠ 0) : WStatus.done ∈ s.workers := by
  cases hw : s.workers with
  | nil => rw [hw] at hne; simp at hne
  | cons a l =>
    have ha : a ∈ s.workers := by rw [hw]; exact List.mem_cons_self a l
    have h2 := hd a ha
    rw [← h2]
    exact List.mem_cons_self a l

lemma spawnCount_pos (num M : Int) : 1 ≤ spawnCount num M := le_max_right _ 1

/-- The terminal cursor position: when ParallelComp joins its workers, the
cursor sits exactly at `num`, and the accumulator records the invocations
on `0, ..., num-1` in order. -/
lemma dispExec_allDone {A : Type} {num : Int} {effect : A → Int → A} {a0 : A}
    {M : Int} {tr : List CompEvent} {s : DispState A}
    (h : dispExec num effect (dispInit a0 (spawnCount num M)) tr = some s)
    (hd : AllDone s) :
    s.next = num ∧ s.acc = (intRange num).foldl effect a0 := by
  have hinv := dispExec_inv (dispInit_inv num effect a0 (spawnCount num M)) h
  obtain ⟨h0, h1, h2, h3, h4, h5⟩ := hinv
  have hk : s.workers.length ≠ 0 := by
    rw [h4]
    have := spawnCount_pos num M
    omega
  have hmem := allDone_mem hd hk
  have hnext := h2 hmem
  exact ⟨hnext, by rw [h3, hnext]⟩

/-- Claim C1: for every itemCount num with 0 ≤ num, every max_concurrency M
and every interleaving of the worker threads, once ParallelComp joins all
workers (AllDone), the user function has been invoked exactly once for
every index in [0, num): the invocation log contains an index i iff
0 ≤ i < num, with no duplicates. -/
theorem claim_C1 (num M : Int) (tr : List CompEvent) (s : DispState (List Int))
    (hnum : 0 ≤ num) (h : parallelCompExec num M tr = some s) (hd : AllDone s) :
    (∀ i : Int, i ∈ s.acc ↔ 0 ≤ i ∧ i < num) ∧ s.acc.Nodup := by
  have hacc := (dispExec_allDone h hd).2
  rw [foldl_recordIndex] at hacc
  simp only [List.nil_append] at hacc
  rw [hacc]
  exact ⟨fun i => mem_intRange, nodup_intRange num⟩

theorem claim_C1_witness :
    (∀ i : Int,
      i ∈ (⟨3, [0, 1, 2], [WStatus.done, WStatus.done]⟩ : DispState (List Int)).acc ↔
      0 ≤ i ∧ i < 3) ∧
    (⟨3, [0, 1, 2], [WStatus.done, WStatus.done]⟩ : DispState (List Int)).acc.Nodup :=
  claim_C1 3 2
    [CompEvent.claim 0, CompEvent.claim 1, CompEvent.claim 0,
     CompEvent.finish 0, CompEvent.finish 1]
    ⟨3, [0, 1, 2], [WStatus.done, WStatus.done]⟩
    (by decide) (by decide) (by decide)

/-- Modelled from the spec: `clamp(x, lo, hi)`, the standard clamp
`max lo (min x hi)`, used in the sentence
`spawns K = clamp(max_concurrency, 1, N) worker threads`. -/
def specClamp (x lo hi : Int) : Int := max lo (min x hi)

/-- Claim C7: for every itemCount num and max_concurrency M, ParallelComp
spawns exactly clamp(M, 1, num) worker threads: the two coercion lines
109-111 compute exactly the spec clamp, silently, with no error signal
(the function returns void and has no failure path). -/
theorem claim_C7 (num M : Int) :
    spawnCount num M = specClamp M 1 num ∧
    (ParallelCompInit num M).workers.length = (specClamp M 1 num).toNat := by
  have h : spawnCount num M = specClamp M 1 num := by
    rw [spawnCount, specClamp, min_comm, max_comm]
  refine ⟨h, ?_⟩
  rw [ParallelCompInit, dispInit, ← h]
  simp

/-- Claim C8 counterexample: the claim says that for itemCount 0 the call
spawns no worker threads, but ParallelComp(0, f, 5) spawns
max(min(0, 5), 1) = 1 worker thread. -/
theorem claim_C8_counterexample : (ParallelCompInit 0 5).workers.length ≠ 0 := by
  decide

/-- Claim C8 (amended): for itemCount 0 and every max_concurrency M, the
call invokes fn zero times and returns immediately; it spawns exactly one
worker thread (the clamp of lines 109-111 yields 1), which claims no index
and immediately exits, so every interleaving has at most one event. -/
theorem claim_C8 (M : Int) (tr : List CompEvent) (s : DispState (List Int))
    (h : parallelCompExec 0 M tr = some s) :
    s.acc = [] ∧ s.workers.length = 1 ∧ tr.length ≤ 1 := by
  have hsc : spawnCount 0 M = 1 := by
    rw [spawnCount]
    omega
  have hinit := dispInit_inv 0 recordIndex ([] : List Int) (spawnCount 0 M)
  have hinv := dispExec_inv hinit h
  obtain ⟨h0, h1, h2, h3, h4, h5⟩ := hinv
  have hnext : s.next = 0 := by
    have := h1 (le_refl 0)
    omega
  refine ⟨by rw [h3, hnext, intRange_zero]; rfl, ?_, ?_⟩
  · rw [h4, hsc]
    rfl
  · have hb := dispExec_length (le_refl (0 : Int)) tr _ s hinit h
    rw [dispInit] at hb
    simp only [Int.sub_zero, Int.toNat_zero] at hb
    rw [hsc] at hb
    simpa [countRunning_replicate] using hb

theorem claim_C8_witness :
    (⟨0, [], [WStatus.done]⟩ : DispState (List Int)).acc = [] ∧
    (⟨0, [], [WStatus.done]⟩ : DispState (List Int)).workers.length = 1 ∧
    ([CompEvent.finish 0] : List CompEvent).length ≤ 1 :=
  claim_C8 7 [CompEvent.finish 0] ⟨0, [], [WStatus.done]⟩ (by decide)

/-- Claim C9: under the precondition 0 ≤ num, every interleaving of the
claim loops of ParallelComp terminates (every successful trace is bounded
by num plus the number of spawned workers, since the cursor strictly
increases by one per claim and each worker exits once at the exhausted
cursor); the precondition is necessary: for num < 0 the exit test
`next_index == num` is never satisfied, so no worker ever exits
(no reachable state has all workers done) and a claim step is always
enabled (the loop runs forever). -/
theorem claim_C9 (num M : Int) :
    (0 ≤ num → ∀ (tr : List CompEvent) (s : DispState (List Int)),
      parallelCompExec num M tr = some s →
      tr.length ≤ num.toNat + (spawnCount num M).toNat) ∧
    (num < 0 → ∀ (tr : List CompEvent) (s : DispState (List Int)),
      parallelCompExec num M tr = some s →
      ¬ AllDone s ∧ dispStep num recordIndex s (CompEvent.claim 0) ≠ none) := by
  constructor
  · intro hnum tr s h
    have hinit := dispInit_inv num recordIndex ([] : List Int) (spawnCount num M)
    have hb := dispExec_length hnum tr _ s hinit h
    rw [dispInit] at hb
    simp only [Int.sub_zero] at hb
    rw [countRunning_replicate] at hb
    exact hb
  · intro hnum tr s h
    have hinit := dispInit_inv num recordIndex ([] : List Int) (spawnCount num M)
    have hinv := dispExec_inv hinit h
    obtain ⟨h0, h1, h2, h3, h4, h5⟩ := hinv
    have hlen : s.workers.length ≠ 0 := by
      rw [h4]
      have := spawnCount_pos num M
      omega
    have hall := h5 hnum
    have hrun0 : s.workers[0]? = some WStatus.running := by
      cases hw : s.workers with
      | nil => rw [hw] at hlen; simp at hlen
      | cons a l =>
        have ha : a ∈ s.workers := by rw [hw]; exact List.mem_cons_self a l
        have := hall a ha
        rw [this]
        simp
    constructor
    · intro hd
      have hmem := allDone_mem hd hlen
      have := hall WStatus.done hmem
      exact absurd this (by simp)
    · rw [dispStep, hrun0]
      have hne : ¬ s.next = num := by omega
      rw [if_neg hne]
      simp

theorem claim_C9_witness :
    ([CompEvent.claim 0, CompEvent.claim 0, CompEvent.finish 0] : List CompEvent).length ≤
      (2 : Int).toNat + (spawnCount 2 1).toNat ∧
    (¬ AllDone (ParallelCompInit (-1) 1) ∧
      dispStep (-1) recordIndex (ParallelCompInit (-1) 1) (CompEvent.claim 0) ≠ none) :=
  ⟨(claim_C9 2 1).1 (by decide)
      [CompEvent.claim 0, CompEvent.claim 0, CompEvent.finish 0]
      ⟨2, [0, 1], [WStatus.done]⟩ (by decide),
   (claim_C9 (-1) 1).2 (by decide) [] (ParallelCompInit (-1) 1) (by decide)⟩

/-- The body of run_write in ParallelMap (lines 167-170): write
`f(vec[idx])` into output slot `idx`.  The source indexes `vec`
unchecked; here the (unreachable for claimed indices) out-of-range case
leaves the buffer unchanged. -/
def writeSlot {T R : Type} (vec : List T) (f : T → R) (buf : List R) (i : Nat) : List R :=
  match vec[i]? with
  | some x => buf.set i (f x)
  | none => buf

/-- run_write as invoked by the distributor on a claimed index (the
`int idx` of line 168, nonnegative for every claimed index). -/
def runWrite {T R : Type} (vec : List T) (f : T → R) (buf : List R) (idx : Int) : List R :=
  writeSlot vec f buf idx.toNat

/-- `ParallelMap(vec, f, max_concurrency)` at entry (lines 160-161 and the
delegation to ParallelAppi at line 171): a default-initialized buffer of
`vec.size()` slots, cursor at 0, `spawnCount` workers. -/
def ParallelMapInit {T : Type} (R : Type) [Inhabited R] (vec : List T) (M : Int) :
    DispState (List R) :=
  dispInit (List.replicate vec.length (default : R)) (spawnCount (vec.length : Int) M)

/-- All interleavings of `ParallelMap(vec, f, M)`. -/
def parallelMapExec {T R : Type} [Inhabited R] (vec : List T) (f : T → R) (M : Int)
    (tr : List CompEvent) : Option (DispState (List R)) :=
  dispExec (vec.length : Int) (runWrite vec f) (ParallelMapInit R vec M) tr

/-- `UnParallelMap(vec, f, _)` (lines 176-189): a default-initialized
buffer of `vec.size()` slots, then `result[i] = f(vec[i])` for
`i = 0, ..., vec.size()-1` in ascending order on the calling thread. -/
def UnParallelMap {T R : Type} [Inhabited R] (vec : List T) (f : T → R) : List R :=
  (List.range vec.length).foldl (writeSlot vec f) (List.replicate vec.length (default : R))

lemma set_append_len {α : Type} (A B : List α) (x : α) :
    (A ++ B).set A.length x = A ++ B.set 0 x := by
  induction A with
  | nil => simp
  | cons a A ih => simp [List.set, ih]

lemma set_append_eq {α : Type} (A B : List α) (x : α) (n : Nat) (h : n = A.length) :
    (A ++ B).set n x = A ++ B.set 0 x := by
  subst h
  exact set_append_len A B x

lemma foldl_writeSlot {T R : Type} [Inhabited R] (vec : List T) (f : T → R) :
    ∀ k : Nat, k ≤ vec.length →
    (List.range k).foldl (writeSlot vec f) (List.replicate vec.length (default : R)) =
    (vec.take k).map f ++ List.replicate (vec.length - k) (default : R) := by
  intro k
  induction k with
  | zero => simp
  | succ k ih =>
    intro hk
    have hk1 : k ≤ vec.length := by omega
    have hklt : k < vec.length := by omega
    rw [List.range_succ, List.foldl_append, ih hk1]
    simp only [List.foldl_cons, List.foldl_nil]
    have hv : vec[k]? = some vec[k] := List.getElem?_eq_getElem hklt
    rw [writeSlot, hv]
    have hlen : ((vec.take k).map f).length = k := by
      rw [List.length_map, List.length_take]
      omega
    show ((vec.take k).map f ++ List.replicate (vec.length - k) (default : R)).set k (f vec[k]) =
      (vec.take (k + 1)).map f ++ List.replicate (vec.length - (k + 1)) (default : R)
    rw [set_append_eq _ _ _ k hlen.symm]
    have hrep : vec.length - k = (vec.length - (k + 1)) + 1 := by omega
    rw [hrep, List.replicate_succ, List.set_cons_zero]
    rw [List.take_succ, hv]
    simp
    rw [List.take_succ]
    simp [List.getElem?_map, hv]

/-- The serial fallback computes exactly the elementwise map. -/
lemma UnParallelMap_eq_map {T R : Type} [Inhabited R] (vec : List T) (f : T → R) :
    UnParallelMap vec f = vec.map f := by
  rw [UnParallelMap, foldl_writeSlot vec f vec.length (le_refl _)]
  simp

lemma intRange_natCast (m : Nat) : intRange (m : Int) = (List.range m).map Int.ofNat := by
  have h : ((m : Int)).toNat = m := by omega
  rw [intRange, h]

lemma foldl_runWrite_intRange {T R : Type} (vec : List T) (f : T → R)
    (b : List R) (m : Nat) :
    (intRange (m : Int)).foldl (runWrite vec f) b =
    (List.range m).foldl (writeSlot vec f) b := by
  rw [intRange_natCast, List.foldl_map]
  rfl

/-- In every interleaving of `ParallelMap(vec, f, M)` that reaches the
join, the output buffer equals the elementwise map: the claimed indices
cover [0, vec.length) exactly once, and the claimed-slot writes are the
only writes. -/
lemma parallelMapExec_acc {T R : Type} [Inhabited R] (vec : List T) (f : T → R)
    (M : Int) (tr : List CompEvent) (s : DispState (List R))
    (h : parallelMapExec vec f M tr = some s) (hd : AllDone s) :
    s.acc = vec.map f := by
  have hda := dispExec_allDone h hd
  rw [hda.2, foldl_runWrite_intRange]
  rw [show (List.range vec.length).foldl (writeSlot vec f)
        (List.replicate vec.length (default : R)) = UnParallelMap vec f from rfl]
  exact UnParallelMap_eq_map vec f

/-- Claim C2: for every input vector vec, every function f, every
max_concurrency M and every interleaving of the worker threads,
ParallelMap returns a buffer of the same length as vec whose slot i holds
f applied to element i of vec. -/
theorem claim_C2 {T R : Type} [Inhabited R] (vec : List T) (f : T → R) (M : Int)
    (tr : List CompEvent) (s : DispState (List R))
    (h : parallelMapExec vec f M tr = some s) (hd : AllDone s) :
    s.acc.length = vec.length ∧
    ∀ (i : Nat) (hi : i < vec.length), s.acc[i]? = some (f (vec.get ⟨i, hi⟩)) := by
  have hacc := parallelMapExec_acc vec f M tr s h hd
  constructor
  · rw [hacc, List.length_map]
  · intro i hi
    rw [hacc, List.getElem?_map, List.getElem?_eq_getElem hi]
    simp

theorem claim_C2_witness :
    (⟨4, [1, 4, 9, 16], [WStatus.done, WStatus.done, WStatus.done]⟩ :
        DispState (List Int)).acc.length = ([1, 2, 3, 4] : List Int).length ∧
    ∀ (i : Nat) (hi : i < ([1, 2, 3, 4] : List Int).length),
      (⟨4, [1, 4, 9, 16], [WStatus.done, WStatus.done, WStatus.done]⟩ :
          DispState (List Int)).acc[i]? =
      some ((fun x : Int => x * x) (([1, 2, 3, 4] : List Int).get ⟨i, hi⟩)) :=
  claim_C2 [1, 2, 3, 4] (fun x : Int => x * x) 3
    [CompEvent.claim 0, CompEvent.claim 0, CompEvent.claim 0, CompEvent.claim 0,
     CompEvent.finish 0, CompEvent.finish 1, CompEvent.finish 2]
    ⟨4, [1, 4, 9, 16], [WStatus.done, WStatus.done, WStatus.done]⟩
    (by decide) (by decide)

/-- Claim C3: for every pure function f, every input vector vec, every
max_concurrency M in [1, vec.length] and every interleaving, the buffer
ParallelMap returns at the join equals the output of the serial fallback
UnParallelMap (which ignores its concurrency argument). -/
theorem claim_C3 {T R : Type} [Inhabited R] (vec : List T) (f : T → R) (M : Int)
    (hM1 : 1 ≤ M) (hM2 : M ≤ (vec.length : Int))
    (tr : List CompEvent) (s : DispState (List R))
    (h : parallelMapExec vec f M tr = some s) (hd : AllDone s) :
    s.acc = UnParallelMap vec f := by
  rw [parallelMapExec_acc vec f M tr s h hd, UnParallelMap_eq_map]

theorem claim_C3_witness :
    (⟨4, [1, 4, 9, 16], [WStatus.done, WStatus.done, WStatus.done]⟩ :
        DispState (List Int)).acc =
    UnParallelMap ([1, 2, 3, 4] : List Int) (fun x : Int => x * x) :=
  claim_C3 [1, 2, 3, 4] (fun x : Int => x * x) 3 (by decide) (by decide)
    [CompEvent.claim 0, CompEvent.claim 0, CompEvent.claim 0, CompEvent.claim 0,
     CompEvent.finish 0, CompEvent.finish 1, CompEvent.finish 2]
    ⟨4, [1, 4, 9, 16], [WStatus.done, WStatus.done, WStatus.done]⟩
    (by decide) (by decide)

/-- State of an Asynchronously runner (lines 211-251): `threads_active`
and the immutable `max_threads` (lines 249-250), plus observations of the
system around it: `running` counts detached threads launched by Run and
not yet finished (lines 224-229), `launches` counts threads ever launched,
`syncRuns` counts tasks executed synchronously on the calling thread
(line 234), and `destroyed` records that the destructor has returned
(lines 239-246). -/
structure AsyncState where
  threads_active : Int
  max_threads : Int
  running : Nat
  launches : Nat
  syncRuns : Nat
  destroyed : Bool
deriving DecidableEq

/-- An atomic event of the runner, each one critical section of the mutex
`m`: a call to Run (lines 219-236), the completion of a detached thread
(lines 225-227), one poll iteration of the destructor that sees a nonzero
counter (lines 240-245), and the final poll that sees zero and returns
(lines 242-244). -/
inductive AsyncEvent : Type
  | submit : AsyncEvent
  | complete : AsyncEvent
  | dtorPoll : AsyncEvent
  | dtorReturn : AsyncEvent
deriving DecidableEq

/-- Asynchronously(max_threads) (lines 212-214): threads_active = 0. -/
def asyncInit (cap : Int) : AsyncState :=
  { threads_active := 0, max_threads := cap, running := 0,
    launches := 0, syncRuns := 0, destroyed := false }

/-- One atomic step of the runner.  Run (lines 219-236) branches on
`threads_active < max_threads`: under capacity it increments the counter
and launches a detached thread; otherwise it runs the task synchronously
(modelled as completing within the event, since the caller does not
return until `f()` does).  A completion (lines 225-227) decrements the
counter under the lock and requires a launched thread to exist.  The
destructor (lines 239-246) polls until the counter is zero, then returns;
no event is enabled after destruction. -/
def asyncStep (s : AsyncState) (e : AsyncEvent) : Option AsyncState :=
  match e with
  | AsyncEvent.submit =>
    if s.destroyed then none
    else if s.threads_active < s.max_threads then
      some { s with threads_active := s.threads_active + 1,
                    running := s.running + 1, launches := s.launches + 1 }
    else
      some { s with syncRuns := s.syncRuns + 1 }
  | AsyncEvent.complete =>
    match s.running with
    | 0 => none
    | r + 1 => some { s with threads_active := s.threads_active - 1, running := r }
  | AsyncEvent.dtorPoll =>
    if s.destroyed then none
    else if s.threads_active = 0 then none
    else some s
  | AsyncEvent.dtorReturn =>
    if s.destroyed then none
    else if s.threads_active = 0 then some { s with destroyed := true }
    else none

/-- Run a list of runner events; `none` if some event is not enabled. -/
def asyncExec : AsyncState → List AsyncEvent → Option AsyncState
  | s, [] => some s
  | s, e :: tr =>
    match asyncStep s e with
    | some s2 => asyncExec s2 tr
    | none => none

/-- Every mutation of `threads_active` in the source sits inside a
critical section of the mutex `m`: the increment at line 222 between
`m.lock()` (line 220) and `m.unlock()` (line 223), the decrement at
line 227 under the MutexLock of line 226; the destructor reads the
counter under the MutexLock of line 241. -/
def eventHoldsLock : AsyncEvent → Bool
  | AsyncEvent.submit => true
  | AsyncEvent.complete => true
  | AsyncEvent.dtorPoll => true
  | AsyncEvent.dtorReturn => true

/-- Invariant of the runner: `threads_active` equals the number of
launched-and-unfinished detached threads, stays below capacity when the
capacity is nonnegative, is zero once the destructor has returned, and
with a nonpositive capacity nothing is ever launched. -/
def AsyncInv (cap : Int) (s : AsyncState) : Prop :=
  s.max_threads = cap ∧ s.threads_active = (s.running : Int) ∧
  (0 ≤ cap → s.threads_active ≤ cap) ∧
  (s.destroyed = true → s.threads_active = 0) ∧
  (cap ≤ 0 → s.running = 0 ∧ s.launches = 0)

lemma asyncStep_inv {cap : Int} {s s2 : AsyncState} {e : AsyncEvent}
    (hs : AsyncInv cap s) (h : asyncStep s e = some s2) : AsyncInv cap s2 := by
  obtain ⟨h1, h2, h3, h4, h5⟩ := hs
  cases e with
  | submit =>
    simp only [asyncStep] at h
    by_cases hdes : s.destroyed
    · rw [if_pos hdes] at h; exact absurd h (by simp)
    · rw [if_neg hdes] at h
      by_cases hlt : s.threads_active < s.max_threads
      · rw [if_pos hlt] at h
        injection h with h
        subst h
        refine ⟨h1, ?_, ?_, ?_, ?_⟩
        · show s.threads_active + 1 = ((s.running + 1 : Nat) : Int)
          omega
        · intro hc
          show s.threads_active + 1 ≤ cap
          rw [h1] at hlt
          omega
        · intro hd
          exact absurd hd (by simpa using hdes)
        · intro hc
          exfalso
          rw [h1] at hlt
          omega
      · rw [if_neg hlt] at h
        injection h with h
        subst h
        exact ⟨h1, h2, h3, fun hd => absurd hd (by simpa using hdes), h5⟩
  | complete =>
    simp only [asyncStep] at h
    cases hr : s.running with
    | zero => rw [hr] at h; exact absurd h (by simp)
    | succ r =>
      rw [hr] at h
      injection h with h
      subst h
      refine ⟨h1, ?_, ?_, ?_, ?_⟩
      · show s.threads_active - 1 = ((r : Nat) : Int)
        rw [h2, hr]
        push_cast
        omega
      · intro hc
        show s.threads_active - 1 ≤ cap
        have := h3 hc
        omega
      · intro hd
        exfalso
        have := h4 hd
        rw [h2, hr] at this
        omega
      · intro hc
        exact absurd hr (by rw [(h5 hc).1]; simp)
  | dtorPoll =>
    simp only [asyncStep] at h
    by_cases hdes : s.destroyed
    · rw [if_pos hdes] at h; exact absurd h (by simp)
    · rw [if_neg hdes] at h
      by_cases hz : s.threads_active = 0
      · rw [if_pos hz] at h; exact absurd h (by simp)
      · rw [if_neg hz] at h
        injection h with h
        subst h
        exact ⟨h1, h2, h3, h4, h5⟩
  | dtorReturn =>
    simp only [asyncStep] at h
    by_cases hdes : s.destroyed
    · rw [if_pos hdes] at h; exact absurd h (by simp)
    · rw [if_neg hdes] at h
      by_cases hz : s.threads_active = 0
      · rw [if_pos hz] at h
        injection h with h
        subst h
        exact ⟨h1, h2, h3, fun _ => hz, h5⟩
      · rw [if_neg hz] at h; exact absurd h (by simp)

lemma asyncExec_inv {cap : Int} : ∀ {tr : List AsyncEvent} {s s2 : AsyncState},
    AsyncInv cap s → asyncExec s tr = some s2 → AsyncInv cap s2 := by
  intro tr
  induction tr with
  | nil =>
    intro s s2 hs h
    simp only [asyncExec] at h
    injection h with h
    subst h
    exact hs
  | cons e tr ih =>
    intro s s2 hs h
    simp only [asyncExec] at h
    cases he : asyncStep s e with
    | none => rw [he] at h; exact absurd h (by simp)
    | some s1 =>
      rw [he] at h
      exact ih (asyncStep_inv hs he) h

lemma asyncInit_inv (cap : Int) : AsyncInv cap (asyncInit cap) := by
  refine ⟨rfl, rfl, ?_, fun h => rfl, fun _ => ⟨rfl, rfl⟩⟩
  intro hc
  exact hc

/-- Claim C4: Run (lines 219-236) branches exactly on the capacity test
`threads_active < max_threads`: under capacity it increments the counter
and launches the task on a new detached thread (whose completion
decrements the counter, third conjunct); at capacity it leaves the
counter unchanged and runs the task synchronously on the calling thread,
returning only after the task completes. -/
theorem claim_C4 (s : AsyncState) (hnd : s.destroyed = false) :
    (s.threads_active < s.max_threads →
      asyncStep s AsyncEvent.submit =
        some { s with threads_active := s.threads_active + 1,
                      running := s.running + 1, launches := s.launches + 1 }) ∧
    (¬ s.threads_active < s.max_threads →
      asyncStep s AsyncEvent.submit = some { s with syncRuns := s.syncRuns + 1 }) ∧
    (∀ r : Nat, s.running = r + 1 →
      asyncStep s AsyncEvent.complete =
        some { s with threads_active := s.threads_active - 1, running := r }) := by
  refine ⟨?_, ?_, ?_⟩
  · intro hlt
    simp only [asyncStep, hnd]
    simp [hlt]
  · intro hnlt
    simp only [asyncStep, hnd]
    simp [hnlt]
  · intro r hr
    simp only [asyncStep, hr]

theorem claim_C4_witness :
    (asyncStep (asyncInit 1) AsyncEvent.submit =
      some { asyncInit 1 with threads_active := (asyncInit 1).threads_active + 1,
                              running := (asyncInit 1).running + 1,
                              launches := (asyncInit 1).launches + 1 }) ∧
    (asyncStep (asyncInit 0) AsyncEvent.submit =
      some { asyncInit 0 with syncRuns := (asyncInit 0).syncRuns + 1 }) ∧
    (asyncStep (AsyncState.mk 1 1 1 1 0 false) AsyncEvent.complete =
      some { AsyncState.mk 1 1 1 1 0 false with
              threads_active := (AsyncState.mk 1 1 1 1 0 false).threads_active - 1,
              running := 0 }) :=
  ⟨(claim_C4 (asyncInit 1) rfl).1 (by decide),
   (claim_C4 (asyncInit 0) rfl).2.1 (by decide),
   (claim_C4 (AsyncState.mk 1 1 1 1 0 false) rfl).2.2 0 rfl⟩

/-- Claim C5: the destructor (lines 239-246) busy-polls under the lock
and returns only once `threads_active == 0`; consequently, in every
reachable state in which the destructor has returned, no launched
detached task is still running (no detached task outlives the runner). -/
theorem claim_C5 (cap : Int) (tr : List AsyncEvent) (s : AsyncState)
    (h : asyncExec (asyncInit cap) tr = some s) (hd : s.destroyed = true) :
    s.threads_active = 0 ∧ s.running = 0 := by
  have hinv := asyncExec_inv (asyncInit_inv cap) h
  obtain ⟨h1, h2, h3, h4, h5⟩ := hinv
  have ha := h4 hd
  refine ⟨ha, ?_⟩
  rw [h2] at ha
  omega

theorem claim_C5_witness :
    (AsyncState.mk 0 1 0 1 0 true).threads_active = 0 ∧
    (AsyncState.mk 0 1 0 1 0 true).running = 0 :=
  claim_C5 1 [AsyncEvent.submit, AsyncEvent.complete, AsyncEvent.dtorReturn]
    (AsyncState.mk 0 1 0 1 0 true) (by decide) rfl

/-- Claim C6 counterexample: the claim quantifies over every runner, but
for a runner constructed with capacity -1 the initial state itself (the
empty event sequence) violates `0 ≤ active_count ≤ capacity`:
`threads_active = 0 > -1 = capacity`. -/
theorem claim_C6_counterexample :
    asyncExec (asyncInit (-1)) [] = some (asyncInit (-1)) ∧
    ¬ (0 ≤ (asyncInit (-1)).threads_active ∧
       (asyncInit (-1)).threads_active ≤ (asyncInit (-1)).max_threads) :=
  ⟨rfl, by decide⟩

/-- Claim C6 (amended): for every runner constructed with capacity ≥ 0,
in every reachable state, under every sequence of Run calls and task
completions, `0 ≤ threads_active ≤ max_threads` holds; and every event
that mutates `threads_active` is a critical section holding the
guarding mutex. -/
theorem claim_C6 (cap : Int) (hcap : 0 ≤ cap) (tr : List AsyncEvent) (s : AsyncState)
    (h : asyncExec (asyncInit cap) tr = some s) :
    (0 ≤ s.threads_active ∧ s.threads_active ≤ s.max_threads) ∧
    (∀ (e : AsyncEvent) (s2 : AsyncState), asyncStep s e = some s2 →
      s2.threads_active ≠ s.threads_active → eventHoldsLock e = true) := by
  have hinv := asyncExec_inv (asyncInit_inv cap) h
  obtain ⟨h1, h2, h3, h4, h5⟩ := hinv
  refine ⟨⟨by omega, by rw [h1]; exact h3 hcap⟩, ?_⟩
  intro e s2 _ _
  cases e <;> rfl

theorem claim_C6_witness :
    ((0 ≤ (AsyncState.mk 1 2 1 1 0 false).threads_active ∧
      (AsyncState.mk 1 2 1 1 0 false).threads_active ≤
        (AsyncState.mk 1 2 1 1 0 false).max_threads) ∧
     (∀ (e : AsyncEvent) (s2 : AsyncState),
        asyncStep (AsyncState.mk 1 2 1 1 0 false) e = some s2 →
        s2.threads_active ≠ (AsyncState.mk 1 2 1 1 0 false).threads_active →
        eventHoldsLock e = true)) :=
  claim_C6 2 (by decide) [AsyncEvent.submit] (AsyncState.mk 1 2 1 1 0 false) (by decide)

/-- Claim C10: for a runner constructed with max_threads ≤ 0, in every
reachable state threads_active is 0 and no thread was ever launched; every
Run executes its task synchronously on the calling thread (the test
`threads_active < max_threads` never holds), and the destructor returns
without waiting (its exit test succeeds at the first poll). -/
theorem claim_C10 (cap : Int) (hcap : cap ≤ 0) (tr : List AsyncEvent) (s : AsyncState)
    (h : asyncExec (asyncInit cap) tr = some s) :
    s.threads_active = 0 ∧ s.running = 0 ∧ s.launches = 0 ∧
    (∀ s2 : AsyncState, asyncStep s AsyncEvent.submit = some s2 →
      s2 = { s with syncRuns := s.syncRuns + 1 }) ∧
    (s.destroyed = false →
      asyncStep s AsyncEvent.dtorReturn = some { s with destroyed := true }) := by
  have hinv := asyncExec_inv (asyncInit_inv cap) h
  obtain ⟨h1, h2, h3, h4, h5⟩ := hinv
  obtain ⟨hr, hl⟩ := h5 hcap
  have hta : s.threads_active = 0 := by
    rw [h2, hr]
    rfl
  refine ⟨hta, hr, hl, ?_, ?_⟩
  · intro s2 hstep
    simp only [asyncStep] at hstep
    cases hdes : s.destroyed with
    | true => rw [hdes] at hstep; simp at hstep
    | false =>
      rw [hdes] at hstep
      have hnlt : ¬ s.threads_active < s.max_threads := by
        rw [hta, h1]
        omega
      simp only [Bool.false_eq_true, if_false, hnlt, if_neg] at hstep
      injection hstep with hstep
      exact hstep.symm
  · intro hdes
    simp only [asyncStep, hdes]
    simp [hta]

theorem claim_C10_witness :
    (AsyncState.mk 0 0 0 0 2 false).threads_active = 0 ∧
    (AsyncState.mk 0 0 0 0 2 false).running = 0 ∧
    (AsyncState.mk 0 0 0 0 2 false).launches = 0 ∧
    (∀ s2 : AsyncState,
      asyncStep (AsyncState.mk 0 0 0 0 2 false) AsyncEvent.submit = some s2 →
      s2 = { AsyncState.mk 0 0 0 0 2 false with
              syncRuns := (AsyncState.mk 0 0 0 0 2 false).syncRuns + 1 }) ∧
    ((AsyncState.mk 0 0 0 0 2 false).destroyed = false →
      asyncStep (AsyncState.mk 0 0 0 0 2 false) AsyncEvent.dtorReturn =
        some { AsyncState.mk 0 0 0 0 2 false with destroyed := true }) :=
  claim_C10 0 (by decide) [AsyncEvent.submit, AsyncEvent.submit]
    (AsyncState.mk 0 0 0 0 2 false) (by decide)
